import Mathlib

/-!
Verification development for the HydroEdit editing-state engine
(src/hydroedit.py).  Lines of the document are modelled as `List Char`
(Python `str` has no embedded newline in a stored line, except where the
source itself inserts one).  Each Python command object is modelled as a
`Cmd` value plus an `ExecCmd` record holding the state the object's
`execute` method captures for `undo`.
-/

namespace HydroEdit

/-- Python `str` whitespace predicate, as used by `lstrip` / `strip` /
`split` (ASCII whitespace; the source only ever feeds it ASCII text). -/
def pyIsSpace (c : Char) : Bool :=
  c == ' ' || c == '\t' || c == '\n' || c == '\x0b' || c == '\x0c' || c == '\r'

/-- Python slice `l[:i]` where the index may be negative (used by
`InsertCommand.undo`, whose index is `cursor_x - 1`). -/
def pySliceTo (l : List Char) (i : Int) : List Char :=
  if i < 0 then l.take ((l.length : Int) + i).toNat else l.take i.toNat

/-- The fields of the source's `EditorState` that the editing-state engine
reads or writes (scroll, cut buffer, file path, language and message are
presentation-layer fields no command touches). -/
structure EditorState where
  content : List (List Char)
  cursor_y : Nat
  cursor_x : Nat
  selection_start : Option (Nat × Nat) := none
  selection_end : Option (Nat × Nat) := none
  insert_mode : Bool := true
  is_modified : Bool := false
  shift_pressed : Bool := false
  deriving DecidableEq

/-- `state.content[state.cursor_y]` (claims only exercise in-bounds rows,
where Python indexing succeeds). -/
def EditorState.curLine (s : EditorState) : List Char :=
  s.content.getD s.cursor_y []

/-- `EditorState.update_selection`. -/
def EditorState.update_selection (s : EditorState) : EditorState :=
  match s.selection_start with
  | none => { s with selection_start := some (s.cursor_y, s.cursor_x),
                     selection_end := some (s.cursor_y, s.cursor_x) }
  | some _ => { s with selection_end := some (s.cursor_y, s.cursor_x) }

/-- `EditorState.clear_selection`. -/
def EditorState.clear_selection (s : EditorState) : EditorState :=
  { s with selection_start := none, selection_end := none }

inductive Direction : Type
  | up | down | left | right
  deriving DecidableEq

/-- The closed set of command variants (`MoveCommand`, `InsertCommand`,
`BackspaceCommand`, `DeleteCommand`, `EnterCommand`, `ReplaceCommand`,
`FormatCommand`). -/
inductive Cmd : Type
  | move (direction : Direction) (amount : Nat)
  | insert (char : List Char)
  | backspace
  | delete
  | enter
  | replace (pattern replacement : List Char) (case_sensitive : Bool)
  | format
  deriving DecidableEq

/-- An executed command: the `Cmd` plus the instance fields its `execute`
recorded for `undo` (`old_y`/`old_x`, `deleted_char`, `old_content`).
Unused fields keep their Python constructor defaults. -/
structure ExecCmd where
  cmd : Cmd
  old_y : Nat := 0
  old_x : Nat := 0
  deleted_char : List Char := []
  old_content : List (List Char) := []
  deriving DecidableEq

/-- One non-overlapping left-to-right replacement pass, pattern known
non-empty; models the library call `str.replace` for such patterns. -/
def pyReplaceAux (p r : List Char) : List Char → List Char
  | [] => []
  | c :: rest =>
      if p.isPrefixOf (c :: rest) && !p.isEmpty then
        r ++ pyReplaceAux p r (rest.drop (p.length - 1))
      else
        c :: pyReplaceAux p r rest
  termination_by s => s.length
  decreasing_by
    · simp only [List.length_drop, List.length_cons]; omega
    · simp only [List.length_cons]; omega

/-- Python `str.replace(p, r)` (replace every non-overlapping occurrence;
an empty pattern inserts `r` at every position, as Python does). -/
def pyReplace (s p r : List Char) : List Char :=
  if p.isEmpty then r ++ (s.map (fun c => c :: r)).flatten
  else pyReplaceAux p r s

/-- `str.lower()` (ASCII case folding; the source's documents are ASCII). -/
def toLowerL (s : List Char) : List Char := s.map Char.toLower

/-- `replace_text(content, pattern, replacement, case_sensitive)`. -/
def replace_text (content : List (List Char)) (pattern replacement : List Char)
    (case_sensitive : Bool) : List (List Char) :=
  let pattern := if case_sensitive then pattern else toLowerL pattern
  let content := if case_sensitive then content else content.map toLowerL
  content.map (fun line => pyReplace line pattern replacement)

/-- `format_code`: the external formatter is an excluded collaborator; the
in-repository code paths that do not reach it (unknown language, or the
formatter module unavailable) return the content unchanged, which is what
this models. -/
def format_code (content : List (List Char)) : List (List Char) := content

/-- The forward action of each command variant (`execute(self, state)`),
returning the new state and the executed-command record. -/
def executeCmd : Cmd → EditorState → EditorState × ExecCmd
  | .move d a, s =>
      let s1 : EditorState :=
        match d with
        | .up => { s with cursor_y := s.cursor_y - a }
        | .down => { s with cursor_y := min (s.content.length - 1) (s.cursor_y + a) }
        | .left => { s with cursor_x := s.cursor_x - a }
        | .right => { s with cursor_x := min s.curLine.length (s.cursor_x + a) }
      let s2 := { s1 with cursor_x := min s1.cursor_x s1.curLine.length }
      let s3 := if s.shift_pressed then s2.update_selection else s2.clear_selection
      (s3, { cmd := .move d a, old_y := s.cursor_y, old_x := s.cursor_x })
  | .insert ch, s =>
      let line := s.curLine
      let newLine :=
        if s.insert_mode then line.take s.cursor_x ++ ch ++ line.drop s.cursor_x
        else if s.cursor_x < line.length then
          line.take s.cursor_x ++ ch ++ line.drop (s.cursor_x + 1)
        else line.take s.cursor_x ++ ch
      let s1 := { s with content := s.content.set s.cursor_y newLine,
                         cursor_x := s.cursor_x + 1, is_modified := true }
      (s1.clear_selection, { cmd := .insert ch, old_y := s.cursor_y, old_x := s.cursor_x })
  | .backspace, s =>
      if 0 < s.cursor_x then
        let line := s.curLine
        let newLine := line.take (s.cursor_x - 1) ++ line.drop s.cursor_x
        let s1 := { s with content := s.content.set s.cursor_y newLine,
                           cursor_x := s.cursor_x - 1, is_modified := true }
        (s1.clear_selection,
         { cmd := .backspace, old_y := s.cursor_y, old_x := s.cursor_x,
           deleted_char := [line.getD (s.cursor_x - 1) ' '] })
      else if 0 < s.cursor_y then
        let prev := s.content.getD (s.cursor_y - 1) []
        let s1 := { s with cursor_x := prev.length,
                           content := (s.content.set (s.cursor_y - 1) (prev ++ s.curLine)).eraseIdx s.cursor_y,
                           cursor_y := s.cursor_y - 1, is_modified := true }
        (s1.clear_selection,
         { cmd := .backspace, old_y := s.cursor_y, old_x := s.cursor_x,
           deleted_char := ['\n'] })
      else
        ({ s with is_modified := true }.clear_selection,
         { cmd := .backspace, old_y := s.cursor_y, old_x := s.cursor_x })
  | .delete, s =>
      let line := s.curLine
      if s.cursor_x < line.length then
        let newLine := line.take s.cursor_x ++ line.drop (s.cursor_x + 1)
        ({ s with content := s.content.set s.cursor_y newLine,
                  is_modified := true }.clear_selection,
         { cmd := .delete, old_y := s.cursor_y, old_x := s.cursor_x,
           deleted_char := [line.getD s.cursor_x ' '] })
      else if s.cursor_y < s.content.length - 1 then
        let nextL := s.content.getD (s.cursor_y + 1) []
        ({ s with content := (s.content.set s.cursor_y (line ++ nextL)).eraseIdx (s.cursor_y + 1),
                  is_modified := true }.clear_selection,
         { cmd := .delete, old_y := s.cursor_y, old_x := s.cursor_x,
           deleted_char := ['\n'] })
      else
        ({ s with is_modified := true }.clear_selection,
         { cmd := .delete, old_y := s.cursor_y, old_x := s.cursor_x })
  | .enter, s =>
      let line := s.curLine
      let indent := line.length - (line.dropWhile pyIsSpace).length
      let indent_str := List.replicate indent ' '
      let new_line := indent_str ++ line.drop s.cursor_x
      let content1 := (s.content.set s.cursor_y (line.take s.cursor_x)).insertIdx (s.cursor_y + 1) new_line
      ({ s with content := content1, cursor_y := s.cursor_y + 1, cursor_x := indent,
                is_modified := true }.clear_selection,
       { cmd := .enter, old_y := s.cursor_y, old_x := s.cursor_x })
  | .replace p r cs, s =>
      ({ s with content := replace_text s.content p r cs, is_modified := true },
       { cmd := .replace p r cs, old_content := s.content })
  | .format, s =>
      ({ s with content := format_code s.content, is_modified := true },
       { cmd := .format, old_content := s.content })

/-- The inverse action of each executed command (`undo(self, state)`).
Faithful to the source, including its quirks: `InsertCommand.undo` slices
with the possibly negative index `cursor_x - 1`; `BackspaceCommand.undo`
and `DeleteCommand.undo` insert a literal newline character into the
merged row instead of re-splitting it; `EnterCommand.undo` concatenates
the next row back without removing the indent it inherited.  (In
`EnterCommand.undo` the source indexes `content[cursor_y - 1]`; every undo
a claim exercises runs with `cursor_y` at least 1, where Nat subtraction
agrees with Python.) -/
def undoCmd (e : ExecCmd) (s : EditorState) : EditorState :=
  match e.cmd with
  | .move _ _ => { s with cursor_y := e.old_y, cursor_x := e.old_x }
  | .insert _ =>
      let line := s.curLine
      let newLine := pySliceTo line ((s.cursor_x : Int) - 1) ++ line.drop s.cursor_x
      { s with content := s.content.set s.cursor_y newLine,
               cursor_y := e.old_y, cursor_x := e.old_x }
  | .backspace =>
      let line := s.curLine
      if e.deleted_char = ['\n'] then
        { s with content := s.content.set s.cursor_y
                   (line.take s.cursor_x ++ '\n' :: line.drop s.cursor_x),
                 cursor_y := s.cursor_y + 1, cursor_x := 0 }
      else
        { s with content := s.content.set s.cursor_y
                   (line.take s.cursor_x ++ e.deleted_char ++ line.drop s.cursor_x),
                 cursor_x := s.cursor_x + 1 }
  | .delete =>
      let line := s.curLine
      if e.deleted_char = ['\n'] then
        { s with content := s.content.set s.cursor_y
                   (line.take s.cursor_x ++ '\n' :: line.drop s.cursor_x),
                 cursor_y := s.cursor_y + 1, cursor_x := 0 }
      else
        { s with content := s.content.set s.cursor_y
                   (line.take s.cursor_x ++ e.deleted_char ++ line.drop s.cursor_x) }
  | .enter =>
      let merged := (s.content.getD (s.cursor_y - 1) []) ++ s.curLine
      { s with content := (s.content.set (s.cursor_y - 1) merged).eraseIdx s.cursor_y,
               cursor_y := e.old_y, cursor_x := e.old_x }
  | .replace _ _ _ => { s with content := e.old_content }
  | .format => { s with content := e.old_content }

/-- `MAX_UNDO` (line 382 of the source). -/
def MAX_UNDO : Nat := 100

/-- `CommandHandler`: two `deque(maxlen=MAX_UNDO)` stacks, modelled as
lists with the newest element at the head; appending to a full deque
drops the oldest element (the tail here). -/
structure CommandHandler where
  undo_stack : List ExecCmd := []
  redo_stack : List ExecCmd := []
  deriving DecidableEq

/-- `CommandHandler.execute_command`: run the forward action, push onto
the undo stack (evicting the oldest entry past `MAX_UNDO`), clear redo. -/
def CommandHandler.execute_command (h : CommandHandler) (c : Cmd) (s : EditorState) :
    EditorState × CommandHandler :=
  let r := executeCmd c s
  (r.1, { undo_stack := (r.2 :: h.undo_stack).take MAX_UNDO, redo_stack := [] })

/-- `CommandHandler.undo`: no-op on an empty stack, else pop, invert,
push onto redo. -/
def CommandHandler.undo (h : CommandHandler) (s : EditorState) :
    EditorState × CommandHandler :=
  match h.undo_stack with
  | [] => (s, h)
  | e :: rest =>
      (undoCmd e s, { undo_stack := rest, redo_stack := (e :: h.redo_stack).take MAX_UNDO })

/-- `CommandHandler.redo`: no-op on an empty stack, else pop and replay
the forward action (Python re-runs `command.execute`, re-recording its
instance fields, hence the fresh `executeCmd`). -/
def CommandHandler.redo (h : CommandHandler) (s : EditorState) :
    EditorState × CommandHandler :=
  match h.redo_stack with
  | [] => (s, h)
  | e :: rest =>
      let r := executeCmd e.cmd s
      (r.1, { undo_stack := (r.2 :: h.undo_stack).take MAX_UNDO, redo_stack := rest })

/-- Engine step on the combined (state, handler) pair. -/
def execCH (c : Cmd) (p : EditorState × CommandHandler) : EditorState × CommandHandler :=
  p.2.execute_command c p.1

/-- Undo step on the combined pair. -/
def undoCH (p : EditorState × CommandHandler) : EditorState × CommandHandler :=
  p.2.undo p.1

/-- Redo step on the combined pair. -/
def redoCH (p : EditorState × CommandHandler) : EditorState × CommandHandler :=
  p.2.redo p.1

/-- Execute a list of commands in order. -/
def execList (cs : List Cmd) (p : EditorState × CommandHandler) :
    EditorState × CommandHandler :=
  cs.foldl (fun p c => execCH c p) p

/-- Call `undo` `n` times. -/
def undoN (n : Nat) (p : EditorState × CommandHandler) : EditorState × CommandHandler :=
  undoCH^[n] p

/-- The document/cursor invariants of the spec's data model:
`0 ≤ row < len(lines)` and `0 ≤ col ≤ len(lines[row])`. -/
def validCursor (s : EditorState) : Prop :=
  s.cursor_y < s.content.length ∧ s.cursor_x ≤ s.curLine.length

instance (s : EditorState) : Decidable (validCursor s) := by
  unfold validCursor; infer_instance

/-! ## Display mapping layer (`wrap_line` and coordinate translation) -/

/-- Python `str.split()` with no separator: split on whitespace runs,
dropping empty pieces (accumulator-based, accumulator reversed). -/
def pySplitAux : List Char → List Char → List (List Char)
  | cur, [] => if cur.isEmpty then [] else [cur.reverse]
  | cur, c :: rest =>
      if pyIsSpace c then
        (if cur.isEmpty then [] else [cur.reverse]) ++ pySplitAux [] rest
      else pySplitAux (c :: cur) rest

/-- Python `text.split()`. -/
def pySplit (s : List Char) : List (List Char) := pySplitAux [] s

/-- Python `' '.join(words)`. -/
def joinSpace : List (List Char) → List Char
  | [] => []
  | [w] => w
  | w :: ws => w ++ ' ' :: joinSpace ws

/-- The character loop of `break_long_word` inside `wrap_line`: `current`
is flushed whenever one more character would exceed `maxw` (so with
`maxw = 0` the first flushed piece is empty, exactly as in Python where
`max_width` can be zero or negative). -/
def breakWordAux (maxw : Nat) : List Char → List Char → List (List Char)
  | current, [] => if current.isEmpty then [] else [current]
  | current, c :: rest =>
      if maxw < current.length + 1 then current :: breakWordAux maxw [c] rest
      else breakWordAux maxw (current ++ [c]) rest

/-- `break_long_word(word, max_width)`.  The source's `max_width` is
`width - indent` as a Python int; when it is zero or negative every
comparison in the loop behaves as at zero, so a truncated Nat is
extensionally faithful. -/
def break_long_word (word : List Char) (maxw : Nat) : List (List Char) :=
  if word.length ≤ maxw then [word] else breakWordAux maxw [] word

/-- The `for word in words` loop of `wrap_line`, emitting wrapped display
lines in order.  Note the source's bookkeeping quirk: after appending a
word, `current_length += len(word) + (1 if current_line else 0)` runs with
`current_line` already non-empty, so the increment is always `+ 1`. -/
def wrapWords (indent_str : List Char) (mcw : Nat) :
    List (List Char) → List (List Char) → Nat → List (List Char)
  | [], current_line, _ =>
      if current_line.isEmpty then [] else [indent_str ++ joinSpace current_line]
  | w :: ws, current_line, current_length =>
      if mcw < w.length then
        (if current_line.isEmpty then [] else [indent_str ++ joinSpace current_line])
          ++ (break_long_word w mcw).map (fun part => indent_str ++ part)
          ++ wrapWords indent_str mcw ws [] 0
      else if mcw < current_length + w.length + (if current_line.isEmpty then 0 else 1) then
        (indent_str ++ joinSpace current_line) :: wrapWords indent_str mcw ws [w] w.length
      else
        wrapWords indent_str mcw ws (current_line ++ [w])
          (current_length + w.length + (if (current_line ++ [w]).isEmpty then 0 else 1))

/-- `wrap_line(line, width)` (pure wrapping computation; the cache around
it is modelled separately by `wrap_line_cached`). -/
def wrap_line (line : List Char) (width : Nat) : List (List Char) :=
  if line.length ≤ width then [line]
  else
    let indent := line.length - (line.dropWhile pyIsSpace).length
    let indent_str := List.replicate indent ' '
    if line.all pyIsSpace then [line]
    else
      let text := line.drop indent
      let words := pySplit text
      if words.isEmpty then [line]
      else wrapWords indent_str (width - indent) words [] 0

/-- `WRAP_CACHE_SIZE` (line 1017 of the source). -/
def WRAP_CACHE_SIZE : Nat := 1000

/-- The wrap cache: a dict keyed by `(line, width)` in insertion order. -/
abbrev WrapCache : Type := List ((List Char × Nat) × List (List Char))

/-- `wrap_line` with its memoization wrapper: serve a hit from the cache,
otherwise compute, evicting the oldest entry when the cache is full
(`WRAP_CACHE.pop(next(iter(WRAP_CACHE)))`). -/
def wrap_line_cached (cache : WrapCache) (line : List Char) (width : Nat) :
    List (List Char) × WrapCache :=
  match List.lookup (line, width) cache with
  | some res => (res, cache)
  | none =>
      let result := wrap_line line width
      let cache' := if WRAP_CACHE_SIZE ≤ cache.length then cache.drop 1 else cache
      (result, cache' ++ [((line, width), result)])

/-- `get_display_line_index(content, cursor_y, text_width)`: sum of the
wrap counts of all logical lines before `cursor_y`. -/
def get_display_line_index (content : List (List Char)) (cursor_y : Nat)
    (text_width : Nat) : Nat :=
  ((content.take cursor_y).map (fun l => (wrap_line l text_width).length)).sum

/-- The mapping-building loop of `get_content_line_index`: each display
line records the current logical counter, which then increments only when
`line.startswith(' ' * (len(line) - len(line.lstrip())))` is false. -/
def contentLineMapAux : Nat → List (List Char) → List Nat
  | _, [] => []
  | cur, line :: rest =>
      let indent := line.length - (line.dropWhile pyIsSpace).length
      cur :: contentLineMapAux
        (if (List.replicate indent ' ').isPrefixOf line then cur else cur + 1) rest

/-- `get_content_line_index(display_lines, display_index)`. -/
def get_content_line_index (display_lines : List (List Char)) (display_index : Nat) : Nat :=
  if display_lines.length ≤ display_index then display_lines.length - 1
  else (contentLineMapAux 0 display_lines).getD display_index 0

/-! ## Search engine -/

/-- Python `line.find(pattern, x)` restricted to a found-or-not result:
the least index at or after `x` where `pattern` occurs (the source's
while loop only consumes this). -/
def findFrom (s p : List Char) (x : Nat) : Option Nat :=
  if x + p.length ≤ s.length then
    if p.isPrefixOf (s.drop x) then some x
    else findFrom s p (x + 1)
  else none
  termination_by s.length + 1 - x
  decreasing_by omega

theorem findFrom_some_bounds {s p : List Char} {x i : Nat}
    (h : findFrom s p x = some i) :
    x ≤ i ∧ i + p.length ≤ s.length ∧ p.isPrefixOf (s.drop i) = true := by
  generalize hm : s.length + 1 - x = m
  induction m using Nat.strong_induction_on generalizing x with
  | _ m ih =>
    unfold findFrom at h
    split at h
    next hle =>
      split at h
      next hpre =>
        injection h with h
        subst h
        exact ⟨Nat.le_refl x, hle, hpre⟩
      next hpre =>
        obtain ⟨h1, h2, h3⟩ := ih (s.length + 1 - (x + 1)) (by omega) h rfl
        exact ⟨by omega, h2, h3⟩
    next hle => exact absurd h (by simp)

/-- The whole-word acceptance test of the literal scan: the characters
just before and just after the match are absent or non-alphanumeric. -/
def wwCheckL (line p : List Char) (x : Nat) : Bool :=
  (x == 0 || !(line.getD (x - 1) ' ').isAlphanum) &&
  (x + p.length == line.length || !(line.getD (x + p.length) ' ').isAlphanum)

/-- The whole-word acceptance test of the regex branch, on a match span. -/
def wwSpanCheck (line : List Char) (a b : Nat) : Bool :=
  (a == 0 || !(line.getD (a - 1) ' ').isAlphanum) &&
  (b == line.length || !(line.getD b ' ').isAlphanum)

/-- The literal `while True` scan of `search_text` over one line:
`find` from `x`, record the hit (subject to the whole-word test), then
advance one character past the match start. -/
def literalScan (line p : List Char) (whole_word : Bool) (x : Nat) : List Nat :=
  match _hf : findFrom line p x with
  | none => []
  | some i =>
      (if whole_word then (if wwCheckL line p i then [i] else []) else [i])
        ++ literalScan line p whole_word (i + 1)
  termination_by line.length + 1 - x
  decreasing_by
    have := findFrom_some_bounds _hf
    omega

/-- `search_text(content, pattern, ...)`.  The regular-expression engine
is an external collaborator (Python's `re`); it enters as the `compile`
and `finditer` parameters, with `compile` returning `none` exactly when
Python's `re.compile` raises `re.error` — the `try`/`except re.error`
of the source then yields the empty match list.  `compile` also receives
`case_sensitive` (the source passes `re.IGNORECASE` when false). -/
def search_text {ρ : Type} (compile : List Char → Bool → Option ρ)
    (finditer : ρ → List Char → List (Nat × Nat))
    (content : List (List Char)) (pattern : List Char)
    (case_sensitive whole_word regex search_in_selection : Bool)
    (selection_start selection_end : Option (Nat × Nat)) : List (Nat × Nat) :=
  if pattern.isEmpty then []
  else
    let startEnd : Nat × Nat :=
      match search_in_selection, selection_start, selection_end with
      | true, some ss, some se => (min ss.1 se.1, max ss.1 se.1)
      | _, _, _ => (0, content.length)
    let rows := List.range' startEnd.1 (startEnd.2 - startEnd.1)
    if regex then
      match compile pattern case_sensitive with
      | none => []
      | some rx =>
          rows.flatMap (fun y =>
            let line := content.getD y []
            (finditer rx line).flatMap (fun sp =>
              if whole_word then
                if wwSpanCheck line sp.1 sp.2 then [(y, sp.1)] else []
              else [(y, sp.1)]))
    else
      let pat := if case_sensitive then pattern else toLowerL pattern
      let cont := if case_sensitive then content else content.map toLowerL
      rows.flatMap (fun y =>
        (literalScan (cont.getD y []) pat whole_word 0).map (fun x => (y, x)))

/-! ## Search-term history (`SearchState`) -/

/-- The pattern-history fields of the source's `SearchState`
(`history_index` is a Python int: it starts at `-1`). -/
structure SearchState where
  last_search : List Char := []
  search_history : List (List Char) := []
  history_index : Int := -1
  deriving DecidableEq

/-- `SearchState.add_to_history(pattern)`: append when the pattern is
non-empty and differs from the last search; no bound is applied. -/
def SearchState.add_to_history (st : SearchState) (pattern : List Char) : SearchState :=
  if pattern ≠ [] ∧ pattern ≠ st.last_search then
    { st with search_history := st.search_history ++ [pattern],
              last_search := pattern,
              history_index := ((st.search_history ++ [pattern]).length : Int) - 1 }
  else st

/-- `SearchState.get_previous_search()`: returned pattern (if any) and
the state after the call. -/
def SearchState.get_previous_search (st : SearchState) :
    Option (List Char) × SearchState :=
  if 0 < st.history_index then
    let i := st.history_index - 1
    (some (st.search_history.getD i.toNat []), { st with history_index := i })
  else (none, st)

/-- `SearchState.get_next_search()`: returned pattern (if any) and the
state after the call. -/
def SearchState.get_next_search (st : SearchState) :
    Option (List Char) × SearchState :=
  if st.history_index < (st.search_history.length : Int) - 1 then
    let i := st.history_index + 1
    (some (st.search_history.getD i.toNat []), { st with history_index := i })
  else (none, st)

/-- A sequence of `add_to_history` calls. -/
def addMany (ps : List (List Char)) (st : SearchState) : SearchState :=
  ps.foldl SearchState.add_to_history st

/-- The side condition of claim C9 on a call sequence: each pattern is
non-empty and distinct from the last search at the moment it is added. -/
def validAdds : SearchState → List (List Char) → Prop
  | _, [] => True
  | st, p :: rest => p ≠ [] ∧ p ≠ st.last_search ∧ validAdds (st.add_to_history p) rest

/-- The non-whitespace characters of a string, in order. -/
def filterNW (s : List Char) : List Char := s.filter (fun c => !pyIsSpace c)

/-- Row-major (row, then column) strict order on match positions. -/
def rowMajorLt (a b : Nat × Nat) : Prop := a.1 < b.1 ∨ (a.1 = b.1 ∧ a.2 < b.2)

/-- An alternating sequence of patterns, every one non-empty and distinct
from its predecessor; used to exhibit unbounded history growth. -/
def altSeq : Nat → Bool → List (List Char)
  | 0, _ => []
  | n + 1, b => (if b then ['a'] else ['b']) :: altSeq n (!b)

/-- The document of the spec's own Split-line test: content
`["  foobar"]` with the cursor at row 0, column 5. -/
def c1_doc : EditorState :=
  { content := [[' ', ' ', 'f', 'o', 'o', 'b', 'a', 'r']], cursor_y := 0, cursor_x := 5 }

/-- A one-line document with the cursor at the origin. -/
def c10_doc : EditorState := { content := [['q', 'w']], cursor_y := 0, cursor_x := 0 }

/-- An empty document in insert mode, for the undo-capacity run. -/
def c4_doc : EditorState := { content := [[]], cursor_y := 0, cursor_x := 0 }

/-! ## Theorems -/

theorem altSeq_growth : ∀ (n : Nat) (b : Bool) (st : SearchState),
    st.last_search ≠ (if b then ['a'] else ['b']) →
    validAdds st (altSeq n b) ∧
    (addMany (altSeq n b) st).search_history.length = st.search_history.length + n := by
  intro n
  induction n with
  | zero => intro b st _; exact ⟨trivial, by simp [altSeq, addMany]⟩
  | succ n ih =>
    intro b st h
    have hne : (if b then ['a'] else ['b']) ≠ ([] : List Char) := by cases b <;> simp
    have hcond : (if b then ['a'] else ['b']) ≠ ([] : List Char) ∧
        (if b then ['a'] else ['b']) ≠ st.last_search := ⟨hne, fun he => h he.symm⟩
    have hadd : (st.add_to_history (if b then ['a'] else ['b'])).last_search =
        (if b then ['a'] else ['b']) := by
      simp [SearchState.add_to_history, hcond]
    have hnext : (st.add_to_history (if b then ['a'] else ['b'])).last_search ≠
        (if !b then ['a'] else ['b']) := by
      rw [hadd]; cases b <;> decide
    obtain ⟨hv, hl⟩ := ih (!b) (st.add_to_history (if b then ['a'] else ['b'])) hnext
    refine ⟨⟨hcond.1, hcond.2, hv⟩, ?_⟩
    have hlen : (st.add_to_history (if b then ['a'] else ['b'])).search_history.length =
        st.search_history.length + 1 := by
      simp [SearchState.add_to_history, hcond]
    calc (addMany (altSeq (n + 1) b) st).search_history.length
        = (addMany (altSeq n (!b)) (st.add_to_history (if b then ['a'] else ['b']))).search_history.length := by
          simp [altSeq, addMany]
      _ = st.search_history.length + (n + 1) := by rw [hl, hlen]; omega

/-- Claim C1 (code bug): `undo(execute(cmd))` is claimed to restore the
exact pre-execute state for every variant, but Split-line already fails
the spec's own test: executing Enter on `["  foobar"]` at (0,5) and then
undoing leaves `["  foo  bar"]` — `EnterCommand.undo` concatenates the
next row back without removing the indent that `execute` copied into it
(and no variant's undo ever restores the modified flag). -/
theorem c1_undo_not_exact_inverse :
    (execCH Cmd.enter (c1_doc, { undo_stack := [], redo_stack := [] })).1.content
        = [[' ', ' ', 'f', 'o', 'o'], [' ', ' ', 'b', 'a', 'r']] ∧
    (undoCH (execCH Cmd.enter (c1_doc, { undo_stack := [], redo_stack := [] }))).1.content
        = [[' ', ' ', 'f', 'o', 'o', ' ', ' ', 'b', 'a', 'r']] ∧
    (undoCH (execCH Cmd.enter (c1_doc, { undo_stack := [], redo_stack := [] }))).1.content
        ≠ c1_doc.content ∧
    (undoCH (execCH Cmd.enter (c1_doc, { undo_stack := [], redo_stack := [] }))).1.cursor_y = 0 ∧
    (undoCH (execCH Cmd.enter (c1_doc, { undo_stack := [], redo_stack := [] }))).1.cursor_x = 5 := by
  decide

/-- Claim C2 (code bug): the display-to-logical map is claimed to invert
logical-to-display when no display line is a wrapped continuation, but
`get_content_line_index` never advances its logical counter for a
space-indented line (its continuation test
`line.startswith(' ' * (len(line) - len(line.lstrip())))` is a
tautology there), so for the unwrapped document `["a", "b"]` display
index 1 maps to logical 0 and back to display 0, not 1. -/
theorem c2_display_roundtrip_fails :
    get_content_line_index [['a'], ['b']] 1 = 0 ∧
    wrap_line ['a'] 80 = [['a']] ∧
    wrap_line ['b'] 80 = [['b']] ∧
    get_display_line_index [['a'], ['b']] (get_content_line_index [['a'], ['b']] 1) 80 ≠ 1 := by
  decide

/-- Counterexample to claim C3 as stated: wrapping `"aa  bb"` at width 3
yields `["aa", "bb"]` (the indent is empty, so nothing is stripped from
continuations); neither plain concatenation nor single-space rejoining
reconstructs the original text — a whitespace character is dropped. -/
theorem c3_counterexample :
    wrap_line ['a', 'a', ' ', ' ', 'b', 'b'] 3 = [['a', 'a'], ['b', 'b']] ∧
    (wrap_line ['a', 'a', ' ', ' ', 'b', 'b'] 3).flatten ≠ ['a', 'a', ' ', ' ', 'b', 'b'] ∧
    joinSpace (wrap_line ['a', 'a', ' ', ' ', 'b', 'b'] 3) ≠ ['a', 'a', ' ', ' ', 'b', 'b'] ∧
    (wrap_line ['a', 'a', ' ', ' ', 'b', 'b'] 3).flatten.length
        < (['a', 'a', ' ', ' ', 'b', 'b'] : List Char).length := by
  decide

theorem filterNW_append (a b : List Char) :
    filterNW (a ++ b) = filterNW a ++ filterNW b := by
  simp [filterNW]

theorem filterNW_eq_self {w : List Char} (h : ∀ c ∈ w, pyIsSpace c = false) :
    filterNW w = w :=
  List.filter_eq_self.mpr (fun c hc => by simp [h c hc])

theorem filterNW_all_space {w : List Char} (h : ∀ c ∈ w, pyIsSpace c = true) :
    filterNW w = [] :=
  List.filter_eq_nil_iff.mpr (fun c hc => by simp [h c hc])

theorem pySplitAux_flatten (s : List Char) :
    ∀ cur, (pySplitAux cur s).flatten = cur.reverse ++ filterNW s := by
  induction s with
  | nil =>
    intro cur
    by_cases hc : cur.isEmpty <;>
      simp_all [pySplitAux, filterNW, List.isEmpty_iff]
  | cons c rest ih =>
    intro cur
    by_cases hsp : pyIsSpace c
    · by_cases hc : cur.isEmpty <;>
        simp_all [pySplitAux, filterNW, List.isEmpty_iff]
    · have := ih (c :: cur)
      simp_all [pySplitAux, filterNW]

theorem revFlush_mem {cur : List Char} {w : List Char}
    (hcur : ∀ c ∈ cur, pyIsSpace c = false)
    (hw : w ∈ if cur.isEmpty then ([] : List (List Char)) else [cur.reverse]) :
    w ≠ [] ∧ ∀ c ∈ w, pyIsSpace c = false := by
  by_cases hc : cur.isEmpty = true
  · rw [if_pos hc] at hw
    simp at hw
  · rw [if_neg hc] at hw
    rw [List.mem_singleton] at hw
    subst hw
    refine ⟨?_, ?_⟩
    · simp only [ne_eq, List.reverse_eq_nil_iff]
      intro h
      exact hc (by simp [h])
    · intro d hd
      exact hcur d (List.mem_reverse.mp hd)

theorem pySplitAux_words (s : List Char) :
    ∀ cur, (∀ c ∈ cur, pyIsSpace c = false) →
      ∀ w ∈ pySplitAux cur s, w ≠ [] ∧ ∀ c ∈ w, pyIsSpace c = false := by
  induction s with
  | nil =>
    intro cur hcur w hw
    simp only [pySplitAux] at hw
    exact revFlush_mem hcur hw
  | cons c rest ih =>
    intro cur hcur w hw
    by_cases hsp : pyIsSpace c
    · simp only [pySplitAux, hsp, if_true] at hw
      rcases List.mem_append.mp hw with hl | hr
      · exact revFlush_mem hcur hl
      · exact ih [] (by simp) w hr
    · simp only [pySplitAux, hsp, if_false] at hw
      refine ih (c :: cur) ?_ w hw
      intro d hd
      rcases List.mem_cons.mp hd with h | h
      · subst h; simpa using hsp
      · exact hcur d h

theorem joinSpace_filter (ws : List (List Char))
    (h : ∀ w ∈ ws, ∀ c ∈ w, pyIsSpace c = false) :
    filterNW (joinSpace ws) = ws.flatten := by
  induction ws with
  | nil => simp [joinSpace, filterNW]
  | cons w ws ih =>
    cases ws with
    | nil =>
      simpa [joinSpace] using filterNW_eq_self (h w (by simp))
    | cons w2 rest =>
      have hw : filterNW w = w := filterNW_eq_self (h w (by simp))
      have hrest := ih (fun u hu c hc => h u (by simp [hu]) c hc)
      simp only [joinSpace, filterNW_append]
      rw [hw]
      simpa [filterNW] using hrest

theorem breakWordAux_flatten (m : Nat) (w : List Char) :
    ∀ cur, (breakWordAux m cur w).flatten = cur ++ w := by
  induction w with
  | nil =>
    intro cur
    by_cases hc : cur.isEmpty <;> simp_all [breakWordAux, List.isEmpty_iff]
  | cons c rest ih =>
    intro cur
    simp only [breakWordAux]
    by_cases hb : m < cur.length + 1
    · rw [if_pos hb]
      simp only [List.flatten_cons, ih [c]]
      simp
    · rw [if_neg hb, ih (cur ++ [c])]
      simp

theorem break_long_word_flatten (w : List Char) (m : Nat) :
    (break_long_word w m).flatten = w := by
  unfold break_long_word
  split
  · simp
  · simpa using breakWordAux_flatten m w []

theorem breakWordAux_ne_nil {m : Nat} (hm : 1 ≤ m) (w : List Char) :
    ∀ cur, ∀ piece ∈ breakWordAux m cur w, piece ≠ [] := by
  induction w with
  | nil =>
    intro cur piece hp
    by_cases hc : cur.isEmpty <;> simp_all [breakWordAux, List.isEmpty_iff]
  | cons c rest ih =>
    intro cur piece hp
    by_cases hb : m < cur.length + 1
    · simp only [breakWordAux, hb, if_true, List.mem_cons] at hp
      rcases hp with h | h
      · subst h
        intro he
        rw [he] at hb
        simp at hb
        omega
      · exact ih [c] piece h
    · simp only [breakWordAux, hb, if_false] at hp
      exact ih (cur ++ [c]) piece hp

theorem break_long_word_ne_nil {w : List Char} {m : Nat} (hm : 1 ≤ m) (hw : w ≠ []) :
    ∀ piece ∈ break_long_word w m, piece ≠ [] := by
  unfold break_long_word
  split
  · intro piece hp
    simp only [List.mem_singleton] at hp
    subst hp; exact hw
  · exact breakWordAux_ne_nil hm w []

theorem joinSpace_ne_nil {ws : List (List Char)} (h1 : ws ≠ [])
    (h2 : ∀ w ∈ ws, w ≠ []) : joinSpace ws ≠ [] := by
  cases ws with
  | nil => exact absurd rfl h1
  | cons w rest =>
    cases rest with
    | nil => simpa [joinSpace] using h2 w (by simp)
    | cons w2 rest2 => simp [joinSpace]

theorem wrapWords_filter (ind : List Char) (mcw : Nat)
    (hind : ∀ c ∈ ind, pyIsSpace c = true) :
    ∀ (ws cur : List (List Char)) (cl : Nat),
      (∀ w ∈ ws, ∀ c ∈ w, pyIsSpace c = false) →
      (∀ w ∈ cur, ∀ c ∈ w, pyIsSpace c = false) →
      filterNW ((wrapWords ind mcw ws cur cl).flatten) = cur.flatten ++ ws.flatten := by
  have hindnil : filterNW ind = [] := filterNW_all_space hind
  have hjoin : ∀ cur : List (List Char), (∀ w ∈ cur, ∀ c ∈ w, pyIsSpace c = false) →
      filterNW (ind ++ joinSpace cur) = cur.flatten := by
    intro cur hcur
    rw [filterNW_append, hindnil, List.nil_append]
    exact joinSpace_filter cur hcur
  intro ws
  induction ws with
  | nil =>
    intro cur cl _ hcur
    simp only [wrapWords]
    by_cases hc : cur.isEmpty = true
    · rw [if_pos hc]
      simp [List.isEmpty_iff.mp hc, filterNW]
    · rw [if_neg hc]
      simp only [List.flatten_cons, List.flatten_nil, List.append_nil]
      rw [hjoin cur hcur]
  | cons w ws ih =>
    intro cur cl hws hcur
    have hw : ∀ c ∈ w, pyIsSpace c = false := hws w (List.mem_cons_self w ws)
    have hws' : ∀ u ∈ ws, ∀ c ∈ u, pyIsSpace c = false :=
      fun u hu => hws u (List.mem_cons_of_mem _ hu)
    have hchunks : filterNW ((break_long_word w mcw).map (fun part => ind ++ part)).flatten = w := by
      unfold filterNW
      rw [List.filter_flatten, List.map_map]
      have heq : ((break_long_word w mcw).map
            ((fun l : List Char => l.filter fun c => !pyIsSpace c) ∘ fun part => ind ++ part))
          = (break_long_word w mcw).map (fun part => part.filter fun c => !pyIsSpace c) := by
        apply List.map_congr_left
        intro part _
        show (ind ++ part).filter _ = _
        rw [List.filter_append]
        have h0 : ind.filter (fun c => !pyIsSpace c) = [] := hindnil
        rw [h0, List.nil_append]
      rw [heq, ← List.filter_flatten, break_long_word_flatten]
      exact filterNW_eq_self hw
    simp only [wrapWords]
    by_cases hlong : mcw < w.length
    · rw [if_pos hlong, List.flatten_append, List.flatten_append,
        filterNW_append, filterNW_append, hchunks, ih [] 0 hws' (by simp)]
      by_cases hc : cur.isEmpty = true
      · rw [if_pos hc]
        have : cur = [] := List.isEmpty_iff.mp hc
        subst this
        simp [filterNW]
      · rw [if_neg hc]
        simp only [List.flatten_cons, List.flatten_nil, List.append_nil]
        rw [hjoin cur hcur]
        simp
    · rw [if_neg hlong]
      by_cases hover : mcw < cl + w.length + (if cur.isEmpty = true then 0 else 1)
      · rw [if_pos hover, List.flatten_cons, filterNW_append, hjoin cur hcur,
          ih [w] w.length hws' ?_]
        · simp
        · intro u hu
          rw [List.mem_singleton] at hu
          subst hu
          exact hw
      · rw [if_neg hover,
          ih (cur ++ [w]) _ hws' ?_]
        · simp
        · intro u hu
          rcases List.mem_append.mp hu with h | h
          · exact hcur u h
          · rw [List.mem_singleton] at h
            subst h
            exact hw

theorem wrapWords_ne_nil {ind : List Char} {mcw : Nat}
    (hcond : ind ≠ [] ∨ 1 ≤ mcw) :
    ∀ (ws cur : List (List Char)) (cl : Nat),
      (∀ w ∈ ws, w ≠ []) → (∀ w ∈ cur, w ≠ []) → (cur = [] → cl = 0) →
      ∀ piece ∈ wrapWords ind mcw ws cur cl, piece ≠ [] := by
  have hflush : ∀ cur : List (List Char), cur ≠ [] → (∀ w ∈ cur, w ≠ []) →
      ind ++ joinSpace cur ≠ [] := by
    intro cur h1 h2 he
    rcases List.append_eq_nil.mp he with ⟨-, hj⟩
    exact joinSpace_ne_nil h1 h2 hj
  intro ws
  induction ws with
  | nil =>
    intro cur cl _ hcur _ piece hp
    simp only [wrapWords] at hp
    by_cases hc : cur.isEmpty = true
    · rw [if_pos hc] at hp
      simp at hp
    · rw [if_neg hc] at hp
      rw [List.mem_singleton] at hp
      subst hp
      exact hflush cur (fun h => hc (by simp [h])) hcur
  | cons w ws ih =>
    intro cur cl hws hcur hcl piece hp
    have hw : w ≠ [] := hws w (List.mem_cons_self w ws)
    have hws' : ∀ u ∈ ws, u ≠ [] := fun u hu => hws u (List.mem_cons_of_mem _ hu)
    simp only [wrapWords] at hp
    by_cases hlong : mcw < w.length
    · rw [if_pos hlong] at hp
      rcases List.mem_append.mp hp with hp1 | hp2
      · rcases List.mem_append.mp hp1 with hp3 | hp4
        · by_cases hc : cur.isEmpty = true
          · rw [if_pos hc] at hp3
            simp at hp3
          · rw [if_neg hc] at hp3
            rw [List.mem_singleton] at hp3
            subst hp3
            exact hflush cur (fun h => hc (by simp [h])) hcur
        · rw [List.mem_map] at hp4
          obtain ⟨part, hpart, rfl⟩ := hp4
          intro he
          rcases List.append_eq_nil.mp he with ⟨hind, hpartnil⟩
          rcases hcond with h | h
          · exact h hind
          · exact break_long_word_ne_nil h hw part hpart hpartnil
      · exact ih [] 0 hws' (by simp) (fun _ => rfl) piece hp2
    · rw [if_neg hlong] at hp
      by_cases hover : mcw < cl + w.length + (if cur.isEmpty = true then 0 else 1)
      · rw [if_pos hover] at hp
        rcases List.mem_cons.mp hp with hp1 | hp2
        · subst hp1
          refine hflush cur ?_ hcur
          intro h
          rw [h] at hover
          rw [hcl h] at hover
          simp at hover
          omega
        · refine ih [w] w.length hws' ?_ (by simp) piece hp2
          intro u hu
          rw [List.mem_singleton] at hu
          subst hu
          exact hw
      · rw [if_neg hover] at hp
        refine ih (cur ++ [w]) _ hws' ?_ (by simp) piece hp
        intro u hu
        rcases List.mem_append.mp hu with h | h
        · exact hcur u h
        · rw [List.mem_singleton] at h
          subst h
          exact hw

theorem lookup_mem {α β : Type} [BEq α] [LawfulBEq α] {l : List (α × β)} {k : α} {v : β}
    (h : List.lookup k l = some v) : (k, v) ∈ l := by
  obtain ⟨l₁, l₂, rfl, -⟩ := List.lookup_eq_some_iff.mp h
  exact List.mem_append.mpr (Or.inr (List.mem_cons_self _ _))

theorem drop_indent (line : List Char) (p : Char → Bool) :
    line.drop (line.length - (line.dropWhile p).length) = line.dropWhile p := by
  have hlen : line.length - (line.dropWhile p).length = (line.takeWhile p).length := by
    have h := congrArg List.length (List.takeWhile_append_dropWhile p line)
    simp only [List.length_append] at h
    omega
  rw [hlen]
  have h2 : List.drop (line.takeWhile p).length (line.takeWhile p ++ line.dropWhile p)
      = line.dropWhile p := List.drop_left _ _
  rw [List.takeWhile_append_dropWhile] at h2
  exact h2

theorem filterNW_dropWhile (line : List Char) :
    filterNW (line.dropWhile pyIsSpace) = filterNW line := by
  conv_rhs => rw [← List.takeWhile_append_dropWhile pyIsSpace line]
  rw [filterNW_append,
    filterNW_all_space (fun c hc => List.mem_takeWhile_imp hc), List.nil_append]

/-- Claim C3 (amended): the wrap cache is transparent (a cache whose
entries agree with `wrap_line` never changes the result); wrapping
preserves every non-whitespace character in order (so concatenating the
wrapped sub-lines reconstructs the de-indented text up to collapsing
each whitespace run to a single separator — not verbatim, see the
counterexample); and for positive width a non-empty line never wraps to
an empty display line. -/
theorem c3_wrap_preserves_characters (line : List Char) (width : Nat) (cache : WrapCache) :
    ((∀ e ∈ cache, e.2 = wrap_line e.1.1 e.1.2) →
        (wrap_line_cached cache line width).1 = wrap_line line width) ∧
    filterNW (wrap_line line width).flatten = filterNW line ∧
    (1 ≤ width → line ≠ [] → ∀ piece ∈ wrap_line line width, piece ≠ []) := by
  refine ⟨?_, ?_, ?_⟩
  · intro hc
    unfold wrap_line_cached
    cases hl : List.lookup (line, width) cache with
    | none => simp
    | some res =>
      simpa using hc _ (lookup_mem hl)
  · unfold wrap_line
    by_cases h1 : line.length ≤ width
    · rw [if_pos h1]; simp
    · rw [if_neg h1]
      by_cases h2 : line.all pyIsSpace
      · rw [if_pos h2]; simp
      · rw [if_neg h2]
        by_cases h3 : (pySplit (line.drop (line.length - (line.dropWhile pyIsSpace).length))).isEmpty
        · rw [if_pos h3]; simp
        · rw [if_neg h3]
          simp only [pySplit]
          have hwords := pySplitAux_words
            (line.drop (line.length - (line.dropWhile pyIsSpace).length)) [] (by simp)
          rw [wrapWords_filter _ _
            (fun c hc => by
              rw [List.eq_of_mem_replicate hc]
              rfl)
            _ [] 0 (fun w hw => (hwords w hw).2) (by simp)]
          rw [List.flatten_nil, List.nil_append]
          rw [pySplitAux_flatten
            (line.drop (line.length - (line.dropWhile pyIsSpace).length)) []]
          rw [List.reverse_nil, List.nil_append,
            drop_indent line pyIsSpace, filterNW_dropWhile]
  · intro hwidth hline
    unfold wrap_line
    by_cases h1 : line.length ≤ width
    · rw [if_pos h1]
      intro piece hp
      rw [List.mem_singleton] at hp
      subst hp; exact hline
    · rw [if_neg h1]
      by_cases h2 : line.all pyIsSpace
      · rw [if_pos h2]
        intro piece hp
        rw [List.mem_singleton] at hp
        subst hp; exact hline
      · rw [if_neg h2]
        by_cases h3 : (pySplit (line.drop (line.length - (line.dropWhile pyIsSpace).length))).isEmpty
        · rw [if_pos h3]
          intro piece hp
          rw [List.mem_singleton] at hp
          subst hp; exact hline
        · rw [if_neg h3]
          simp only [pySplit]
          have hwords := pySplitAux_words
            (line.drop (line.length - (line.dropWhile pyIsSpace).length)) [] (by simp)
          refine wrapWords_ne_nil ?_ _ [] 0 (fun w hw => (hwords w hw).1) (by simp)
            (fun _ => rfl)
          by_cases hz : line.length - (line.dropWhile pyIsSpace).length = 0
          · right
            rw [hz]
            omega
          · left
            simp only [ne_eq, List.replicate_eq_nil_iff]
            omega

theorem c3_witness :
    (∀ e ∈ ([] : WrapCache), e.2 = wrap_line e.1.1 e.1.2) ∧
    (wrap_line_cached [] ['a', 'b', 'c'] 2).1 = wrap_line ['a', 'b', 'c'] 2 ∧
    filterNW (wrap_line ['a', 'b', 'c'] 2).flatten = filterNW ['a', 'b', 'c'] ∧
    (1 ≤ 2 ∧ (['a', 'b', 'c'] : List Char) ≠ []) ∧
    (∀ piece ∈ wrap_line ['a', 'b', 'c'] 2, piece ≠ []) := by
  have h := c3_wrap_preserves_characters ['a', 'b', 'c'] 2 []
  exact ⟨by simp, h.1 (by simp), h.2.1, by decide,
    h.2.2 (by decide) (by decide)⟩

theorem set_getD_self {α : Type} (l : List α) (y : Nat) (d : α) (h : y < l.length) :
    l.set y (l.getD y d) = l := by
  apply List.ext_getElem?
  intro n
  by_cases hn : y = n
  · subst hn
    rw [List.getElem?_set_self h, List.getD_eq_getElem?_getD,
      List.getElem?_eq_getElem h]
    rfl
  · rw [List.getElem?_set_ne hn]

theorem insert_exec_undo_mk (cont : List (List Char)) (y x : Nat) (sp : Bool) (c : Char)
    (hy : y < cont.length) (hx : x ≤ (cont.getD y []).length) :
    undoCmd (executeCmd (Cmd.insert [c]) ⟨cont, y, x, none, none, true, true, sp⟩).2
        (executeCmd (Cmd.insert [c]) ⟨cont, y, x, none, none, true, true, sp⟩).1
      = ⟨cont, y, x, none, none, true, true, sp⟩ := by
  have hxlen : (List.take x (cont.getD y [])).length = x := by
    rw [List.length_take]
    omega
  have h1 : (cont.set y
        (List.take x (cont.getD y []) ++ [c] ++ List.drop x (cont.getD y []))).getD y []
      = List.take x (cont.getD y []) ++ [c] ++ List.drop x (cont.getD y []) := by
    rw [List.getD_eq_getElem?_getD, List.getElem?_set_self hy]
    rfl
  have h2 : pySliceTo
        (List.take x (cont.getD y []) ++ [c] ++ List.drop x (cont.getD y []))
        (((x + 1 : Nat) : Int) - 1) = List.take x (cont.getD y []) := by
    unfold pySliceTo
    rw [if_neg (by omega)]
    rw [show (((x + 1 : Nat) : Int) - 1).toNat = x by omega]
    rw [List.append_assoc]
    exact List.take_left' hxlen
  have h3 : List.drop (x + 1)
        (List.take x (cont.getD y []) ++ [c] ++ List.drop x (cont.getD y []))
      = List.drop x (cont.getD y []) := by
    refine List.drop_left' ?_
    rw [List.length_append, hxlen]
    rfl
  have h4 : cont.set y (cont.getD y []) = cont := set_getD_self cont y [] hy
  simp only [executeCmd, undoCmd, EditorState.curLine, EditorState.clear_selection, ite_true]
  simp only [h1, h2, h3, List.set_set, List.take_append_drop, h4]

theorem insert_exec_undo {s : EditorState} {c : Char} (hm : s.insert_mode = true)
    (hmod : s.is_modified = true) (h1 : s.selection_start = none)
    (h2 : s.selection_end = none) (hv : validCursor s) :
    undoCmd (executeCmd (Cmd.insert [c]) s).2 (executeCmd (Cmd.insert [c]) s).1 = s := by
  obtain ⟨cont, y, x, ss, se, im, mod, sp⟩ := s
  simp only at hm hmod h1 h2
  subst hm hmod h1 h2
  exact insert_exec_undo_mk cont y x sp c hv.1 hv.2

theorem insert_exec_fields (s : EditorState) (c : Char) :
    (executeCmd (Cmd.insert [c]) s).1.insert_mode = s.insert_mode ∧
    (executeCmd (Cmd.insert [c]) s).1.is_modified = true ∧
    (executeCmd (Cmd.insert [c]) s).1.selection_start = none ∧
    (executeCmd (Cmd.insert [c]) s).1.selection_end = none := by
  simp [executeCmd, EditorState.clear_selection]

theorem insert_preserves_valid {s : EditorState} {c : Char} (hm : s.insert_mode = true)
    (hv : validCursor s) : validCursor (executeCmd (Cmd.insert [c]) s).1 := by
  obtain ⟨hy, hx⟩ := hv
  have hs' : (executeCmd (Cmd.insert [c]) s).1 =
      { s with
        content := (s.content.set s.cursor_y
          (s.curLine.take s.cursor_x ++ [c] ++ s.curLine.drop s.cursor_x)),
        cursor_x := s.cursor_x + 1, is_modified := true,
        selection_start := none, selection_end := none } := by
    simp [executeCmd, EditorState.clear_selection, hm]
  rw [hs']
  constructor
  · show s.cursor_y < (s.content.set s.cursor_y
        (s.curLine.take s.cursor_x ++ [c] ++ s.curLine.drop s.cursor_x)).length
    simpa [List.length_set] using hy
  · show s.cursor_x + 1 ≤ ((s.content.set s.cursor_y
        (s.curLine.take s.cursor_x ++ [c] ++ s.curLine.drop s.cursor_x)).getD s.cursor_y []).length
    rw [List.getD_eq_getElem?_getD, List.getElem?_set_self hy]
    show s.cursor_x + 1 ≤ (s.curLine.take s.cursor_x ++ [c] ++ s.curLine.drop s.cursor_x).length
    simp only [List.length_append, List.length_take, List.length_cons, List.length_nil,
      List.length_drop]
    omega

theorem execList_insert_undoN :
    ∀ (chs : List Char) (s : EditorState) (h : CommandHandler),
      s.insert_mode = true → validCursor s → s.is_modified = true →
      s.selection_start = none → s.selection_end = none →
      h.undo_stack.length ≤ MAX_UNDO → chs.length ≤ MAX_UNDO →
      ∃ r, undoN chs.length (execList (chs.map (fun c => Cmd.insert [c])) (s, h))
        = (s, { undo_stack := h.undo_stack.take (MAX_UNDO - chs.length), redo_stack := r }) := by
  intro chs
  induction chs with
  | nil =>
    intro s h _ _ _ _ _ hle _
    refine ⟨h.redo_stack, ?_⟩
    simp only [List.length_nil, List.map_nil, execList, List.foldl_nil, undoN,
      Function.iterate_zero, id_eq, Nat.sub_zero]
    rw [List.take_of_length_le hle]
  | cons c chs ih =>
    intro s h hm hv hmod h1 h2 hstack hlen
    have hstep : execList ((c :: chs).map (fun c => Cmd.insert [c])) (s, h)
        = execList (chs.map (fun c => Cmd.insert [c]))
            ((executeCmd (Cmd.insert [c]) s).1,
             { undo_stack := ((executeCmd (Cmd.insert [c]) s).2 :: h.undo_stack).take MAX_UNDO,
               redo_stack := [] }) := by
      simp [execList, execCH, CommandHandler.execute_command]
    have hfields := insert_exec_fields s c
    obtain ⟨r', hr'⟩ := ih (executeCmd (Cmd.insert [c]) s).1
      { undo_stack := ((executeCmd (Cmd.insert [c]) s).2 :: h.undo_stack).take MAX_UNDO,
        redo_stack := [] }
      (hfields.1.trans hm) (insert_preserves_valid hm hv) hfields.2.1
      hfields.2.2.1 hfields.2.2.2
      (List.length_take_le MAX_UNDO _)
      (by simpa using Nat.le_of_succ_le hlen)
    refine ⟨(((executeCmd (Cmd.insert [c]) s).2 :: r').take MAX_UNDO), ?_⟩
    rw [hstep]
    have hsucc : (c :: chs).length = chs.length + 1 := List.length_cons c chs
    rw [hsucc]
    rw [undoN, Function.iterate_succ_apply']
    rw [show undoCH^[chs.length] = undoN chs.length from rfl, hr']
    have htake : ((((executeCmd (Cmd.insert [c]) s).2 :: h.undo_stack).take MAX_UNDO).take
          (MAX_UNDO - chs.length))
        = (executeCmd (Cmd.insert [c]) s).2 ::
            h.undo_stack.take (MAX_UNDO - (chs.length + 1)) := by
      rw [List.take_take, Nat.min_def, if_pos (by omega)]
      rw [show MAX_UNDO - chs.length = (MAX_UNDO - (chs.length + 1)) + 1 by omega]
      rfl
    rw [undoCH]
    simp only [htake, CommandHandler.undo]
    rw [insert_exec_undo hm hmod h1 h2 hv]

/-- Claim C4: with undo capacity `MAX_UNDO = 100`, executing one
Insert-char command and then 100 more (one character each, insert mode,
valid cursor), followed by 100 undos, returns exactly to the state right
after the first insert: the first command was evicted from the bounded
undo stack, which is now empty, so a further undo is a no-op — the first
inserted character alone remains applied and is not recoverable. -/
theorem c4_undo_capacity (s0 : EditorState) (c0 : Char) (rest : List Char)
    (hm : s0.insert_mode = true) (hv : validCursor s0) (hlen : rest.length = MAX_UNDO) :
    (undoN MAX_UNDO (execList (rest.map (fun c => Cmd.insert [c]))
        (execCH (Cmd.insert [c0]) (s0, { undo_stack := [], redo_stack := [] })))).1
      = (executeCmd (Cmd.insert [c0]) s0).1 ∧
    (undoN MAX_UNDO (execList (rest.map (fun c => Cmd.insert [c]))
        (execCH (Cmd.insert [c0]) (s0, { undo_stack := [], redo_stack := [] })))).2.undo_stack
      = [] ∧
    undoCH (undoN MAX_UNDO (execList (rest.map (fun c => Cmd.insert [c]))
        (execCH (Cmd.insert [c0]) (s0, { undo_stack := [], redo_stack := [] }))))
      = undoN MAX_UNDO (execList (rest.map (fun c => Cmd.insert [c]))
          (execCH (Cmd.insert [c0]) (s0, { undo_stack := [], redo_stack := [] }))) := by
  have hfields := insert_exec_fields s0 c0
  have hexec : execCH (Cmd.insert [c0]) (s0, { undo_stack := [], redo_stack := [] })
      = ((executeCmd (Cmd.insert [c0]) s0).1,
         { undo_stack := [(executeCmd (Cmd.insert [c0]) s0).2], redo_stack := [] }) := rfl
  obtain ⟨r, hr⟩ := execList_insert_undoN rest (executeCmd (Cmd.insert [c0]) s0).1
    { undo_stack := [(executeCmd (Cmd.insert [c0]) s0).2], redo_stack := [] }
    (hfields.1.trans hm) (insert_preserves_valid hm hv) hfields.2.1 hfields.2.2.1
    hfields.2.2.2 (by simp [MAX_UNDO]) (by omega)
  rw [hlen] at hr
  rw [hexec, hr]
  refine ⟨rfl, by simp, ?_⟩
  have hz : MAX_UNDO - MAX_UNDO = 0 := Nat.sub_self _
  rw [hz]
  rfl

theorem c4_witness :
    (c4_doc.insert_mode = true ∧ validCursor c4_doc ∧
      (List.replicate MAX_UNDO 'b').length = MAX_UNDO) ∧
    (undoN MAX_UNDO (execList ((List.replicate MAX_UNDO 'b').map (fun c => Cmd.insert [c]))
        (execCH (Cmd.insert ['a']) (c4_doc, { undo_stack := [], redo_stack := [] })))).1
      = (executeCmd (Cmd.insert ['a']) c4_doc).1 := by
  refine ⟨⟨rfl, by decide, by simp⟩, ?_⟩
  exact (c4_undo_capacity c4_doc 'a' (List.replicate MAX_UNDO 'b') rfl
    (by decide) (by simp)).1

/-- Claim C5: `execute_command` always leaves an empty redo stack, and in
the sequence execute(A); execute(B); undo; execute(C) the final `redo` is
a no-op — B is not recoverable. -/
theorem c5_fresh_execute_clears_redo :
    (∀ (c : Cmd) (s : EditorState) (h : CommandHandler),
        ((h.execute_command c s).2).redo_stack = []) ∧
    (∀ (A B C : Cmd) (s0 : EditorState),
        redoCH (execCH C (undoCH (execCH B (execCH A (s0, { undo_stack := [], redo_stack := [] }))))) =
          execCH C (undoCH (execCH B (execCH A (s0, { undo_stack := [], redo_stack := [] }))))) := by
  constructor
  · intro c s h; rfl
  · intro A B C s0; rfl

theorem findFrom_none {s p : List Char} {x : Nat} (h : findFrom s p x = none) :
    ∀ j, x ≤ j → j + p.length ≤ s.length → p.isPrefixOf (s.drop j) = false := by
  generalize hm : s.length + 1 - x = m
  induction m using Nat.strong_induction_on generalizing x with
  | _ m ih =>
    intro j hxj hj
    unfold findFrom at h
    split at h
    next hle =>
      split at h
      next hpre => exact absurd h (by simp)
      next hpre =>
        by_cases hje : j = x
        · subst hje
          cases hb : p.isPrefixOf (s.drop j)
          · rfl
          · exact absurd hb hpre
        · exact ih (s.length + 1 - (x + 1)) (by omega) h rfl j (by omega) hj
    next hle => omega

theorem literalScan_eq_none {line p : List Char} {x : Nat} {ww : Bool}
    (h : findFrom line p x = none) : literalScan line p ww x = [] := by
  rw [literalScan.eq_def]
  split
  · rfl
  next i hf => rw [h] at hf; cases hf

theorem literalScan_eq_some {line p : List Char} {x i : Nat} {ww : Bool}
    (h : findFrom line p x = some i) :
    literalScan line p ww x =
      (if ww = true then (if wwCheckL line p i then [i] else []) else [i])
        ++ literalScan line p ww (i + 1) := by
  rw [literalScan.eq_def]
  split
  next hf => rw [h] at hf; cases hf
  next i' hf =>
    rw [h] at hf
    injection hf with hf
    subst hf
    rfl

theorem findFrom_some_min {s p : List Char} {x i : Nat} (h : findFrom s p x = some i) :
    ∀ j, x ≤ j → j < i → p.isPrefixOf (s.drop j) = false := by
  generalize hm : s.length + 1 - x = m
  induction m using Nat.strong_induction_on generalizing x with
  | _ m ih =>
    intro j hxj hji
    unfold findFrom at h
    split at h
    next hle =>
      split at h
      next hpre =>
        injection h with h
        subst h
        exact absurd hji (by omega)
      next hpre =>
        by_cases hje : j = x
        · subst hje
          cases hb : p.isPrefixOf (s.drop j)
          · rfl
          · exact absurd hb hpre
        · exact ih (s.length + 1 - (x + 1)) (by omega) h rfl j (by omega) hji
    next hle => exact absurd h (by simp)

theorem mem_literalScan {line p : List Char} (x : Nat) :
    ∀ i, i ∈ literalScan line p false x ↔
      x ≤ i ∧ i + p.length ≤ line.length ∧ p.isPrefixOf (line.drop i) = true := by
  generalize hm : line.length + 1 - x = m
  induction m using Nat.strong_induction_on generalizing x with
  | _ m ih =>
    intro i
    cases hf : findFrom line p x with
    | none =>
      rw [literalScan_eq_none hf]
      constructor
      · intro h
        exact absurd h (List.not_mem_nil i)
      · rintro ⟨h1, h2, h3⟩
        have hfalse := findFrom_none hf i h1 h2
        rw [h3] at hfalse
        exact absurd hfalse (by simp)
    | some i0 =>
      obtain ⟨hxi0, hbound, hpre⟩ := findFrom_some_bounds hf
      have hmin := findFrom_some_min hf
      have hrec := ih (line.length + 1 - (i0 + 1)) (by omega) (i0 + 1) rfl i
      rw [literalScan_eq_some hf]
      simp only [Bool.false_eq_true, if_false, List.singleton_append, List.mem_cons]
      constructor
      · rintro (rfl | hmem)
        · exact ⟨hxi0, hbound, hpre⟩
        · obtain ⟨ha, hb, hc⟩ := hrec.mp hmem
          exact ⟨by omega, hb, hc⟩
      · rintro ⟨h1, h2, h3⟩
        by_cases hij : i = i0
        · exact Or.inl hij
        · refine Or.inr (hrec.mpr ⟨?_, h2, h3⟩)
          by_contra hlt
          push_neg at hlt
          have hio : i < i0 := by omega
          have hfalse := hmin i h1 hio
          rw [h3] at hfalse
          exact absurd hfalse (by simp)

theorem literalScan_ge {line p : List Char} {ww : Bool} (x : Nat) :
    ∀ i ∈ literalScan line p ww x, x ≤ i := by
  generalize hm : line.length + 1 - x = m
  induction m using Nat.strong_induction_on generalizing x with
  | _ m ih =>
    intro i hi
    cases hf : findFrom line p x with
    | none =>
      rw [literalScan_eq_none hf] at hi
      exact absurd hi (List.not_mem_nil i)
    | some i0 =>
      obtain ⟨hxi0, hbound, -⟩ := findFrom_some_bounds hf
      rw [literalScan_eq_some hf] at hi
      rcases List.mem_append.mp hi with h1 | h2
      · have hii : i = i0 := by
          by_cases hw : ww = true
          · rw [if_pos hw] at h1
            by_cases hc : wwCheckL line p i0 = true
            · rw [if_pos hc] at h1
              simpa using h1
            · rw [if_neg hc] at h1
              simp at h1
          · rw [if_neg hw] at h1
            simpa using h1
        omega
      · have := ih (line.length + 1 - (i0 + 1)) (by omega) (i0 + 1) rfl i h2
        omega

theorem literalScan_pairwise {line p : List Char} {ww : Bool} (x : Nat) :
    (literalScan line p ww x).Pairwise (· < ·) := by
  generalize hm : line.length + 1 - x = m
  induction m using Nat.strong_induction_on generalizing x with
  | _ m ih =>
    cases hf : findFrom line p x with
    | none =>
      rw [literalScan_eq_none hf]
      exact List.Pairwise.nil
    | some i0 =>
      obtain ⟨hxi0, hbound, -⟩ := findFrom_some_bounds hf
      have hrec : (literalScan line p ww (i0 + 1)).Pairwise (· < ·) :=
        ih (line.length + 1 - (i0 + 1)) (by omega) (i0 + 1) rfl
      have hge := @literalScan_ge line p ww (i0 + 1)
      rw [literalScan_eq_some hf, List.pairwise_append]
      refine ⟨?_, hrec, ?_⟩
      · by_cases hw : ww = true
        · rw [if_pos hw]
          by_cases hc : wwCheckL line p i0 = true
          · rw [if_pos hc]
            simp
          · rw [if_neg hc]
            simp
        · rw [if_neg hw]
          simp
      · intro a ha b hb
        have hb' := hge b hb
        have ha' : a = i0 := by
          by_cases hw : ww = true
          · rw [if_pos hw] at ha
            by_cases hc : wwCheckL line p i0 = true
            · rw [if_pos hc] at ha
              simpa using ha
            · rw [if_neg hc] at ha
              simp at ha
          · rw [if_neg hw] at ha
            simpa using ha
        omega

theorem search_text_literal {ρ : Type} (compile : List Char → Bool → Option ρ)
    (finditer : ρ → List Char → List (Nat × Nat))
    (content : List (List Char)) (p : List Char) (hp : p ≠ []) :
    search_text compile finditer content p true false false false none none
      = (List.range content.length).flatMap
          (fun y => (literalScan (content.getD y []) p false 0).map (fun x => (y, x))) := by
  unfold search_text
  rw [if_neg (by simpa [List.isEmpty_iff] using hp)]
  show (List.range' 0 (content.length - 0)).flatMap
      (fun y => (literalScan (content.getD y []) p false 0).map (fun x => (y, x))) = _
  rw [Nat.sub_zero, ← List.range_eq_range']

/-- Claim C7: in literal (non-regex) mode the scan advances one character
past each found match start, so every occurrence — overlapping ones
included — is reported: for a non-empty pattern with case-sensitive,
non-whole-word, unscoped settings, `(y, x)` is a match exactly when the
pattern occurs at column `x` of row `y`, and the match list is strictly
ordered row-major, left-to-right; in particular pattern `"a"` over the
document `["aaa"]` yields exactly the matches at row 0, columns 0, 1, 2. -/
theorem c7_literal_overlapping :
    (∀ {ρ : Type} (compile : List Char → Bool → Option ρ)
        (finditer : ρ → List Char → List (Nat × Nat))
        (content : List (List Char)) (p : List Char) (y x : Nat), p ≠ [] →
        ((y, x) ∈ search_text compile finditer content p true false false false none none ↔
          y < content.length ∧ x + p.length ≤ (content.getD y []).length ∧
            p.isPrefixOf ((content.getD y []).drop x) = true)) ∧
    (∀ {ρ : Type} (compile : List Char → Bool → Option ρ)
        (finditer : ρ → List Char → List (Nat × Nat))
        (content : List (List Char)) (p : List Char), p ≠ [] →
        (search_text compile finditer content p true false false false none none).Pairwise
          rowMajorLt) ∧
    search_text (fun _ _ => (none : Option Unit)) (fun _ _ => [])
        [['a', 'a', 'a']] ['a'] true false false false none none
      = [(0, 0), (0, 1), (0, 2)] := by
  refine ⟨?_, ?_, ?_⟩
  · intro ρ compile finditer content p y x hp
    rw [search_text_literal compile finditer content p hp, List.mem_flatMap]
    constructor
    · rintro ⟨y', hy', hmem⟩
      rw [List.mem_map] at hmem
      obtain ⟨x', hx', heq⟩ := hmem
      rw [Prod.mk.injEq] at heq
      obtain ⟨rfl, rfl⟩ := heq
      rw [List.mem_range] at hy'
      have hocc := (mem_literalScan 0 x').mp hx'
      exact ⟨hy', hocc.2.1, hocc.2.2⟩
    · rintro ⟨hy, hb, hpre⟩
      exact ⟨y, List.mem_range.mpr hy,
        List.mem_map.mpr ⟨x, (mem_literalScan 0 x).mpr ⟨Nat.zero_le x, hb, hpre⟩, rfl⟩⟩
  · intro ρ compile finditer content p hp
    rw [search_text_literal compile finditer content p hp, List.flatMap_def,
      List.pairwise_flatten]
    constructor
    · intro l' hl'
      rw [List.mem_map] at hl'
      obtain ⟨y, hy, rfl⟩ := hl'
      rw [List.pairwise_map]
      refine (literalScan_pairwise 0).imp ?_
      intro a b hab
      exact Or.inr ⟨rfl, hab⟩
    · rw [List.pairwise_map]
      refine (List.pairwise_lt_range content.length).imp ?_
      intro y y' hyy' u hu v hv
      rw [List.mem_map] at hu hv
      obtain ⟨xu, -, rfl⟩ := hu
      obtain ⟨xv, -, rfl⟩ := hv
      exact Or.inl hyy'
  · have h0 : findFrom ['a', 'a', 'a'] ['a'] 0 = some 0 := by
      simp +decide [findFrom, List.isPrefixOf]
    have h1 : findFrom ['a', 'a', 'a'] ['a'] 1 = some 1 := by
      simp +decide [findFrom, List.isPrefixOf]
    have h2 : findFrom ['a', 'a', 'a'] ['a'] 2 = some 2 := by
      simp +decide [findFrom, List.isPrefixOf]
    have h3 : findFrom ['a', 'a', 'a'] ['a'] 3 = none := by
      simp +decide [findFrom, List.isPrefixOf]
    have hscan : literalScan ['a', 'a', 'a'] ['a'] false 0 = [0, 1, 2] := by
      rw [literalScan_eq_some h0, literalScan_eq_some h1, literalScan_eq_some h2,
        literalScan_eq_none h3]
      rfl
    rw [search_text_literal _ _ _ _ (by decide)]
    rw [show List.range ([['a', 'a', 'a']] : List (List Char)).length = [0] from rfl]
    rw [List.flatMap_cons, List.flatMap_nil, List.append_nil]
    show (literalScan ['a', 'a', 'a'] ['a'] false 0).map (fun x => ((0 : Nat), x))
      = [(0, 0), (0, 1), (0, 2)]
    rw [hscan]
    rfl

theorem c7_witness :
    ((['a'] : List Char) ≠ []) ∧
    ((0, 1) ∈ search_text (fun _ _ => (none : Option Unit)) (fun _ _ => [])
        [['a', 'a', 'a']] ['a'] true false false false none none ↔
      0 < ([['a', 'a', 'a']] : List (List Char)).length ∧
        1 + (['a'] : List Char).length
            ≤ (([['a', 'a', 'a']] : List (List Char)).getD 0 []).length ∧
        (['a'] : List Char).isPrefixOf
            ((([['a', 'a', 'a']] : List (List Char)).getD 0 []).drop 1) = true) :=
  ⟨by decide, c7_literal_overlapping.1 _ _ _ _ 0 1 (by decide)⟩

theorem pyReplaceAux_no_occ {p r : List Char} :
    ∀ s : List Char, (∀ j, j + p.length ≤ s.length → p.isPrefixOf (s.drop j) = false) →
    pyReplaceAux p r s = s := by
  intro s
  induction s with
  | nil => intro _; simp [pyReplaceAux]
  | cons c rest ih =>
    intro h
    have hg : p.isPrefixOf (c :: rest) = false := by
      cases hb : p.isPrefixOf (c :: rest)
      · rfl
      · have hlen : p.length ≤ (c :: rest).length :=
          (List.isPrefixOf_iff_prefix.mp hb).length_le
        have h0 := h 0 (by omega)
        rw [List.drop_zero, hb] at h0
        exact absurd h0 (by simp)
    simp only [pyReplaceAux, hg, Bool.false_and, if_neg (by simp : ¬(false = true))]
    rw [ih ?_]
    intro j hj
    have hshift := h (j + 1) (by simp only [List.length_cons]; omega)
    rwa [List.drop_succ_cons] at hshift

theorem pyReplace_no_occ {s p r : List Char} (h : findFrom s p 0 = none) :
    pyReplace s p r = s := by
  have hp : p ≠ [] := by
    intro he
    subst he
    unfold findFrom at h
    simp [List.isPrefixOf] at h
  unfold pyReplace
  rw [if_neg (by simpa [List.isEmpty_iff] using hp)]
  exact pyReplaceAux_no_occ s (fun j hj => findFrom_none h j (Nat.zero_le j) hj)

/-- Claim C6: executing Replace-all in case-insensitive mode lower-cases
both the pattern and every stored line before substituting, so the
stored content becomes the substitution applied to the lower-cased text
— in particular a line with no occurrence of the lowered pattern is
still mutated to all lower case; undoing the Replace-all restores the
pre-execution line sequence verbatim. -/
theorem c6_replace_lowercases_store (s : EditorState) (h : CommandHandler)
    (p r : List Char) :
    (execCH (Cmd.replace p r false) (s, h)).1.content
      = s.content.map (fun line => pyReplace (toLowerL line) (toLowerL p) r) ∧
    (∀ line : List Char, findFrom (toLowerL line) (toLowerL p) 0 = none →
        pyReplace (toLowerL line) (toLowerL p) r = toLowerL line) ∧
    (undoCH (execCH (Cmd.replace p r false) (s, h))).1.content = s.content := by
  refine ⟨?_, ?_, ?_⟩
  · simp [execCH, CommandHandler.execute_command, executeCmd, replace_text,
      List.map_map, Function.comp]
  · intro line hocc
    exact pyReplace_no_occ hocc
  · rfl

theorem c6_witness :
    findFrom (toLowerL ['q']) (toLowerL ['X']) 0 = none ∧
    pyReplace (toLowerL ['q']) (toLowerL ['X']) ['r'] = toLowerL ['q'] := by
  have h1 : toLowerL ['q'] = ['q'] := by decide
  have h2 : toLowerL ['X'] = ['x'] := by decide
  have hocc : findFrom (toLowerL ['q']) (toLowerL ['X']) 0 = none := by
    rw [h1, h2]
    simp +decide [findFrom, List.isPrefixOf]
  exact ⟨hocc,
    (c6_replace_lowercases_store c4_doc { undo_stack := [], redo_stack := [] }
      ['X'] ['r']).2.1 ['q'] hocc⟩

/-- Claim C8: with regex mode enabled, a pattern the regex collaborator
fails to compile (Python raises `re.error`, modelled by `compile`
returning `none`) makes `search_text` return the empty match list; the
function is total, so no fault escapes. -/
theorem c8_malformed_regex_empty {ρ : Type} (compile : List Char → Bool → Option ρ)
    (finditer : ρ → List Char → List (Nat × Nat))
    (content : List (List Char)) (pattern : List Char)
    (case_sensitive whole_word search_in_selection : Bool)
    (selection_start selection_end : Option (Nat × Nat))
    (hc : compile pattern case_sensitive = none) :
    search_text compile finditer content pattern case_sensitive whole_word true
      search_in_selection selection_start selection_end = [] := by
  unfold search_text
  by_cases hp : pattern.isEmpty <;> simp [hp, hc]

theorem c8_witness :
    ((fun _ _ => (none : Option Unit)) (['('] : List Char) true = none) ∧
    search_text (fun _ _ => (none : Option Unit)) (fun _ _ => [])
      [['a', 'b']] ['('] true false true false none none = [] :=
  ⟨rfl, c8_malformed_regex_empty _ _ _ _ _ _ _ _ _ rfl⟩

/-- Claim C9 (amended): the search-term history list is unbounded — each
accepted add appends exactly one entry, and for every proposed capacity
there is a valid call sequence whose history exceeds it; navigation with
`get_previous_search` / `get_next_search` never modifies the stored
list (no duplication or truncation). -/
theorem c9_history_unbounded_navigation_pure :
    (∀ (st : SearchState) (p : List Char), p ≠ [] → p ≠ st.last_search →
        (st.add_to_history p).search_history = st.search_history ++ [p]) ∧
    (∀ st : SearchState, st.get_previous_search.2.search_history = st.search_history ∧
        st.get_next_search.2.search_history = st.search_history) ∧
    (∀ capacity : Nat, ∃ ps : List (List Char), validAdds {} ps ∧
        capacity < (addMany ps {}).search_history.length) := by
  refine ⟨?_, ?_, ?_⟩
  · intro st p h1 h2
    simp [SearchState.add_to_history, h1, h2]
  · intro st
    constructor
    · unfold SearchState.get_previous_search
      split <;> rfl
    · unfold SearchState.get_next_search
      split <;> rfl
  · intro cap
    obtain ⟨hv, hl⟩ := altSeq_growth (cap + 1) true {} (by decide)
    exact ⟨altSeq (cap + 1) true, hv, by rw [hl]; simp⟩

theorem c9_witness :
    ((['a'] : List Char) ≠ [] ∧ (['a'] : List Char) ≠ ({} : SearchState).last_search) ∧
    (({} : SearchState).add_to_history ['a']).search_history
        = ({} : SearchState).search_history ++ [['a']] :=
  ⟨⟨by decide, by decide⟩,
   c9_history_unbounded_navigation_pure.1 {} ['a'] (by decide) (by decide)⟩

/-- Counterexample to claim C9 as stated: no fixed capacity bounds the
history — for any proposed capacity a valid sequence of
`add_to_history` calls (each pattern non-empty and distinct from the
last search) makes the stored list longer. -/
theorem c9_counterexample :
    ¬ ∃ capacity : Nat, ∀ ps : List (List Char),
        validAdds {} ps → (addMany ps {}).search_history.length ≤ capacity := by
  rintro ⟨cap, hall⟩
  obtain ⟨hv, hl⟩ := altSeq_growth (cap + 1) true {} (by decide)
  have h := hall (altSeq (cap + 1) true) hv
  rw [hl] at h
  simp at h

/-- Claim C10: Backspace with the cursor at (0, 0) leaves the line
sequence, the cursor and the recorded deleted character unchanged, yet
still sets the modified flag and clears the selection. -/
theorem c10_backspace_at_origin (s : EditorState)
    (hy : s.cursor_y = 0) (hx : s.cursor_x = 0) :
    (executeCmd Cmd.backspace s).1.content = s.content ∧
    (executeCmd Cmd.backspace s).1.cursor_y = s.cursor_y ∧
    (executeCmd Cmd.backspace s).1.cursor_x = s.cursor_x ∧
    (executeCmd Cmd.backspace s).2.deleted_char = [] ∧
    (executeCmd Cmd.backspace s).1.is_modified = true ∧
    (executeCmd Cmd.backspace s).1.selection_start = none ∧
    (executeCmd Cmd.backspace s).1.selection_end = none := by
  simp [executeCmd, hy, hx, EditorState.clear_selection]

theorem c10_witness :
    (c10_doc.cursor_y = 0 ∧ c10_doc.cursor_x = 0) ∧
    ((executeCmd Cmd.backspace c10_doc).1.content = c10_doc.content ∧
     (executeCmd Cmd.backspace c10_doc).1.cursor_y = c10_doc.cursor_y ∧
     (executeCmd Cmd.backspace c10_doc).1.cursor_x = c10_doc.cursor_x ∧
     (executeCmd Cmd.backspace c10_doc).2.deleted_char = [] ∧
     (executeCmd Cmd.backspace c10_doc).1.is_modified = true ∧
     (executeCmd Cmd.backspace c10_doc).1.selection_start = none ∧
     (executeCmd Cmd.backspace c10_doc).1.selection_end = none) :=
  ⟨⟨rfl, rfl⟩, c10_backspace_at_origin c10_doc rfl rfl⟩

end HydroEdit
